import Mathlib

/-!
# Verification of the CryptoArbitrageBot core against its specification

Shallow embedding of the core components of the repository:

* `src/core/orderbook_manager.py` — `SimpleOrderBook` (a price→size dict per
  side) with `apply_update` / `top_n` / `best_bid` / `best_ask`, and
  `OrderbookManager.process_message` dispatching Binance / Coinbase payloads.
* `src/websockets/arbitrage_engine.py` — the pair scan computing fee-adjusted
  net spreads and emitting opportunities above a threshold.
* `src/websockets/binance_client.py`, `src/websockets/okx_client.py` — the
  reconnect/backoff state machines and the bounded log queue producer.

Python floats are modelled as rationals (`ℚ`); `float(s)` parsing of a wire
string is modelled as `Option ℚ` (`none` = the parse raised, caught by the
surrounding `try`/`except`).  Python dicts keyed by price are modelled as
association lists with the first matching key authoritative, exactly the
behaviour of `d[k] = v` / `d.pop(k, None)` on a dict with unique keys.
-/

namespace ArbBot

/-! ## Python `str.lower()` for the ASCII identifiers used by the code -/

/-- ASCII lower-casing of one character. -/
def charLower (c : Char) : Char :=
  if c.isUpper then Char.ofNat (c.toNat + 32) else c

/-- Python `s.lower()` restricted to the ASCII identifiers appearing in the
code (exchange names, side tags). -/
def pyLower (s : String) : String := String.mk (s.data.map charLower)

/-! ## Python dict primitives (price → size mappings) -/

/-- Python dict assignment `d[k] = v`: replace the binding if the key is present,
otherwise append the new binding (insertion order preserved). -/
def dictInsert : List (ℚ × ℚ) → ℚ → ℚ → List (ℚ × ℚ)
  | [], k, v => [(k, v)]
  | (k₀, v₀) :: rest, k, v =>
    if k₀ = k then (k, v) :: rest else (k₀, v₀) :: dictInsert rest k v

/-- Python dict `d.pop(k, None)`: drop the binding for `k` if present,
otherwise leave the dict unchanged (no error). -/
def dictRemove : List (ℚ × ℚ) → ℚ → List (ℚ × ℚ)
  | [], _ => []
  | (k₀, v₀) :: rest, k =>
    if k₀ = k then rest else (k₀, v₀) :: dictRemove rest k

/-- Python dict lookup `d.get(k)` / `d[k]`. -/
def dictGet : List (ℚ × ℚ) → ℚ → Option ℚ
  | [], _ => none
  | (k₀, v₀) :: rest, k => if k₀ = k then some v₀ else dictGet rest k

/-- The keys of the mapping. -/
def dictKeys (m : List (ℚ × ℚ)) : List ℚ := m.map Prod.fst

/-! ## `math.isclose` as used in `SimpleOrderBook.apply_update`

`math.isclose(size, 0.0)` with the Python defaults `rel_tol=1e-9`,
`abs_tol=0.0` evaluates `abs(a-b) <= max(rel_tol * max(abs(a), abs(b)), abs_tol)`. -/

def relTol : ℚ := 1 / 1000000000

def absTol : ℚ := 0

/-- Python `math.isclose(a, b)` at the default tolerances. -/
def isclose (a b : ℚ) : Bool :=
  |a - b| ≤ max (relTol * max |a| |b|) absTol

/-- With `rel_tol`-only tolerances, `math.isclose(s, 0.0)` holds iff `s = 0`:
the deletion sentinel test in `apply_update` accepts exactly size 0. -/
lemma isclose_zero_iff (s : ℚ) : isclose s 0 = true ↔ s = 0 := by
  unfold isclose relTol absTol
  simp only [decide_eq_true_eq, sub_zero, abs_zero]
  rw [max_eq_left (abs_nonneg s),
    max_eq_left (by positivity : (0 : ℚ) ≤ 1 / 1000000000 * |s|)]
  constructor
  · intro h
    have hs : |s| ≤ 0 := by linarith [abs_nonneg s]
    exact abs_eq_zero.mp (le_antisymm hs (abs_nonneg s))
  · intro h
    subst h
    simp

/-! ## `SimpleOrderBook` (src/core/orderbook_manager.py) -/

/-- The `side` argument of `apply_update`: the code tests `side == "buy"` and
treats every other string as the ask side. -/
inductive Side
  | buy
  | sell
  deriving DecidableEq, Repr

/-- State of `SimpleOrderBook`: a price→size mapping for each side. -/
structure SimpleOrderBook where
  bids : List (ℚ × ℚ)
  asks : List (ℚ × ℚ)
  deriving DecidableEq, Repr

/-- Initial state from `SimpleOrderBook.__init__`: both mappings empty. -/
def SimpleOrderBook.empty : SimpleOrderBook := ⟨[], []⟩

/-- Embedding of `SimpleOrderBook.apply_update(side, price, size)`:
size 0 (or `math.isclose` to 0) deletes the level if present, any other size
(including negative sizes — the code performs no sign check) is upserted. -/
def applyUpdate (ob : SimpleOrderBook) (side : Side) (price size : ℚ) :
    SimpleOrderBook :=
  if size = 0 ∨ isclose size 0 then
    match side with
    | .buy => { ob with bids := dictRemove ob.bids price }
    | .sell => { ob with asks := dictRemove ob.asks price }
  else
    match side with
    | .buy => { ob with bids := dictInsert ob.bids price size }
    | .sell => { ob with asks := dictInsert ob.asks price size }

/-- Insertion step for sorting level lists by a boolean comparator. -/
def insertByLe (le : (ℚ × ℚ) → (ℚ × ℚ) → Bool) (x : ℚ × ℚ) :
    List (ℚ × ℚ) → List (ℚ × ℚ)
  | [] => [x]
  | y :: ys => if le x y then x :: y :: ys else y :: insertByLe le x ys

/-- Sorting a level list by a boolean comparator (Python `sorted(...)` with a
key; with unique price keys the comparator order determines the result). -/
def sortByLe (le : (ℚ × ℚ) → (ℚ × ℚ) → Bool) : List (ℚ × ℚ) → List (ℚ × ℚ)
  | [] => []
  | x :: xs => insertByLe le x (sortByLe le xs)

/-- Bid order: `key=lambda x: -x[0]`, i.e. price descending. -/
def bidLe (x y : ℚ × ℚ) : Bool := y.1 ≤ x.1

/-- Ask order: `key=lambda x: x[0]`, i.e. price ascending. -/
def askLe (x y : ℚ × ℚ) : Bool := x.1 ≤ y.1

/-- Embedding of `SimpleOrderBook.top_n(n)`: bids sorted descending and asks ascending,
each truncated to the first `n` entries, recomputed from the mappings. -/
def topN (ob : SimpleOrderBook) (n : ℕ) : List (ℚ × ℚ) × List (ℚ × ℚ) :=
  ((sortByLe bidLe ob.bids).take n, (sortByLe askLe ob.asks).take n)

/-- Embedding of `SimpleOrderBook.best_bid()`: `None` when the bid mapping is empty,
otherwise the maximum price key with its size. -/
def bestBid (ob : SimpleOrderBook) : Option (ℚ × ℚ) :=
  match (dictKeys ob.bids).maximum with
  | none => none
  | some p => (dictGet ob.bids p).map (fun s => (p, s))

/-- Embedding of `SimpleOrderBook.best_ask()`: `None` when the ask mapping is empty,
otherwise the minimum price key with its size. -/
def bestAsk (ob : SimpleOrderBook) : Option (ℚ × ℚ) :=
  match (dictKeys ob.asks).minimum with
  | none => none
  | some p => (dictGet ob.asks p).map (fun s => (p, s))

/-! ## `OrderbookManager.process_message` (src/core/orderbook_manager.py)

A wire-format level is a `(price, size)` pair of strings; `float(s)` either
yields a rational or raises (caught per level by `try`/`except ... continue`).
We model a level as a pair of parse results. -/

/-- A raw `[price, qty]` wire level; `none` components model strings on which
`float()` raises. -/
abbrev RawLevel := Option ℚ × Option ℚ

/-- A raw Coinbase l2update change `[side, price, size]`. -/
structure RawChange where
  side : String
  price : Option ℚ
  size : Option ℚ
  deriving Repr

/-- The parsed-JSON payloads `process_message` inspects, as a record of the
dict keys it reads (`none` = key absent). -/
structure PyMsg where
  b : Option (List RawLevel)
  a : Option (List RawLevel)
  mtype : Option String
  bids : Option (List RawLevel)
  asks : Option (List RawLevel)
  changes : Option (List RawChange)

/-- A message with none of the recognised keys. -/
def PyMsg.empty : PyMsg := ⟨none, none, none, none, none, none⟩

/-- Apply a list of raw levels to one side: a level whose price or size fails
to parse is skipped (`except: continue`); well-formed levels go through
`apply_update`. -/
def applyLevels (side : Side) (ob : SimpleOrderBook) (levels : List RawLevel) :
    SimpleOrderBook :=
  levels.foldl
    (fun b l =>
      match l with
      | (some p, some q) => applyUpdate b side p q
      | _ => b)
    ob

/-- Coinbase side tag: `side.lower() in ("buy", "b")` selects the bid side; anything else is
treated as the ask side. -/
def changeSide (s : String) : Side :=
  if pyLower s = "buy" ∨ pyLower s = "b" then .buy else .sell

/-- Apply a list of Coinbase l2update changes; a change whose price or size
fails to parse is skipped. -/
def applyChanges (ob : SimpleOrderBook) (cs : List RawChange) :
    SimpleOrderBook :=
  cs.foldl
    (fun b c =>
      match c.price, c.size with
      | some p, some q => applyUpdate b (changeSide c.side) p q
      | _, _ => b)
    ob

/-- The Binance branch of `process_message`: if the payload has a `'b'` or
`'a'` key, apply its bid levels then its ask levels incrementally (there is no
snapshot handling for Binance — every such message is differential). -/
def processBinance (ob : SimpleOrderBook) (m : PyMsg) : SimpleOrderBook :=
  if m.b.isSome ∨ m.a.isSome then
    applyLevels .sell (applyLevels .buy ob (m.b.getD [])) (m.a.getD [])
  else ob

/-- The Coinbase branch of `process_message`: a `type == "snapshot"` payload
clears both mappings and inserts the snapshot levels; otherwise a payload with
a `"changes"` key is applied differentially. -/
def processCoinbase (ob : SimpleOrderBook) (m : PyMsg) : SimpleOrderBook :=
  if m.mtype = some "snapshot" then
    applyLevels .sell
      (applyLevels .buy SimpleOrderBook.empty (m.bids.getD []))
      (m.asks.getD [])
  else if m.changes.isSome then applyChanges ob (m.changes.getD [])
  else ob

/-- Per-exchange books of the manager: `{"binance": ..., "coinbase": ...}`. -/
structure Manager where
  binance : SimpleOrderBook
  coinbase : SimpleOrderBook
  deriving DecidableEq, Repr

/-- Initial state from `OrderbookManager.__init__`: both books empty. -/
def Manager.init : Manager := ⟨.empty, .empty⟩

/-- Embedding of `OrderbookManager.process_message(exchange, data)`: lower-case the
exchange name, ignore unknown exchanges, and dispatch to the per-venue
handler. -/
def processMessage (mgr : Manager) (exchange : String) (m : PyMsg) : Manager :=
  let ex := pyLower exchange
  if ex = "binance" then { mgr with binance := processBinance mgr.binance m }
  else if ex = "coinbase" then
    { mgr with coinbase := processCoinbase mgr.coinbase m }
  else mgr

/-! ## Arbitrage engine (src/websockets/arbitrage_engine.py)

The engine snapshots `obm.books` (exchange → normalized dict), keeps the
exchanges whose `best_bid` and `best_ask` are numeric (`isinstance(...,
(int, float))` — modelled as `Option ℚ` being `some`), and evaluates every
ordered pair of distinct valid exchanges. -/

/-- One entry of `obm.books`: the fields the engine reads.  `none` models a
missing or non-numeric value. -/
structure BookEntry where
  best_bid : Option ℚ
  best_ask : Option ℚ
  timestamp : Option String
  deriving Repr, DecidableEq

/-- A validated top-of-book: both prices numeric. -/
structure ValidEntry where
  best_bid : ℚ
  best_ask : ℚ
  timestamp : Option String
  deriving Repr, DecidableEq

/-- The `valid` dict: exchanges whose `best_bid` and `best_ask` are both
numeric, in iteration order. -/
def validBooks (books : List (String × BookEntry)) :
    List (String × ValidEntry) :=
  books.filterMap
    (fun e =>
      match e.2.best_bid, e.2.best_ask with
      | some bid, some ask => some (e.1, ⟨bid, ask, e.2.timestamp⟩)
      | _, _ => none)

/-- Fee model: `net_receive = sell_price * (1 - fee_sell)`. -/
def netReceive (sell_price fee_sell : ℚ) : ℚ := sell_price * (1 - fee_sell)

/-- Fee model: `net_cost = buy_price * (1 + fee_buy)`. -/
def netCost (buy_price fee_buy : ℚ) : ℚ := buy_price * (1 + fee_buy)

/-- Guarded ratio `profit_pct = net_spread / net_cost if net_cost != 0 else 0.0`. -/
def profitPct (sell_price buy_price fee_buy fee_sell : ℚ) : ℚ :=
  let nr := netReceive sell_price fee_sell
  let nc := netCost buy_price fee_buy
  if nc ≠ 0 then (nr - nc) / nc else 0

/-- The opportunity record appended for a qualifying pair. -/
structure Opp where
  sell_ex : String
  buy_ex : String
  sell_price : ℚ
  buy_price : ℚ
  gross_spread : ℚ
  net_spread : ℚ
  profit_pct : ℚ
  ts_sell : Option String
  ts_buy : Option String
  deriving Repr, DecidableEq

/-- The record built from a (sell, buy) pair of valid entries. -/
def mkOpp (sellEx buyEx : String) (sd bd : ValidEntry)
    (fee_buy fee_sell : ℚ) : Opp :=
  { sell_ex := sellEx
    buy_ex := buyEx
    sell_price := sd.best_bid
    buy_price := bd.best_ask
    gross_spread := sd.best_bid - bd.best_ask
    net_spread :=
      netReceive sd.best_bid fee_sell - netCost bd.best_ask fee_buy
    profit_pct := profitPct sd.best_bid bd.best_ask fee_buy fee_sell
    ts_sell := sd.timestamp
    ts_buy := bd.timestamp }

/-- One scan tick of `arbitrage_engine`: skip the tick when fewer than two
exchanges are in the snapshot, otherwise collect, over all ordered pairs of
distinct valid exchanges, the opportunities with `profit_pct >= threshold`. -/
def scanTick (books : List (String × BookEntry))
    (threshold fee_buy fee_sell : ℚ) : List Opp :=
  if books.length < 2 then []
  else
    let valid := validBooks books
    valid.flatMap
      (fun se =>
        valid.filterMap
          (fun be =>
            if se.1 = be.1 then none
            else if threshold ≤ profitPct se.2.best_bid be.2.best_ask
                fee_buy fee_sell then
              some (mkOpp se.1 be.1 se.2 be.2 fee_buy fee_sell)
            else none))

/-! ## Bounded log queue (src/websockets/binance_client.py `enqueue_log`,
identically src/websockets/multi_runner.py)

`asyncio.Queue.put` on a full queue *waits* for a free slot; `QueueFull` is
raised only by `put_nowait`, so the `except asyncio.QueueFull` branch of
`enqueue_log` is unreachable and a full queue suspends the producer. -/

/-- The shared bounded log queue: pending `(path, line)` items and the
`maxsize` bound (`LOG_QUEUE_MAXSIZE`). -/
structure LogQueue where
  items : List (String × String)
  maxsize : ℕ
  deriving Repr, DecidableEq

/-- Outcome of `await queue.put(item)` under asyncio semantics. -/
inductive PutOutcome
  | enqueued (q : LogQueue)
  | waits
  deriving Repr, DecidableEq

/-- Semantics of `await log_queue.put((path, text))`: append when a slot is free, else the
producer coroutine suspends until a consumer frees a slot. -/
def queuePut (q : LogQueue) (item : String × String) : PutOutcome :=
  if q.items.length < q.maxsize then
    .enqueued ⟨q.items ++ [item], q.maxsize⟩
  else .waits

/-- Embedding of `enqueue_log(path, text)`: it simply awaits `log_queue.put`; no drop counter
exists anywhere in the module (the dead `except QueueFull` branch only
prints). -/
def enqueueLog (q : LogQueue) (path text : String) : PutOutcome :=
  queuePut q (path, text)

/-! ## Reconnect/backoff state machines

* `binance_client.handle_stream` (and identically `coinbase_client`):
  a per-stream `attempt` counter, incremented on each failure *before* the
  sleep, reset to 0 after a successful connect+subscribe;
  `exponential_backoff(attempt)` sleeps `min(MAX_BACKOFF, 2**attempt) +
  uniform(0, 1)` with `MAX_BACKOFF = 30`.
* `okx_client.run_okx`: a `backoff` delay variable starting at 1, reset to 1
  after a successful subscribe; on error it sleeps `backoff` (no jitter) and
  then doubles it, capped at 30: `backoff = min(backoff * 2, 30)`. -/

/-- An event seen by the connection loop of one client: a successful
connect+subscribe, or a connect/stream failure (carrying the jitter value
`random.uniform(0, 1)` would return, for clients that draw one). -/
inductive NetEvent
  | ok
  | fail (j : ℚ)

/-- Sleep duration of `exponential_backoff(attempt)`, given the jitter. -/
def binanceDelay (attempt : ℕ) (j : ℚ) : ℚ := min 30 (2 ^ attempt) + j

/-- One step of the Binance/Coinbase `handle_stream` loop: state is the
`attempt` counter; a failure increments it and sleeps
`exponential_backoff(attempt)`, a success resets it to 0 (no sleep). -/
def binanceStep (attempt : ℕ) : NetEvent → ℕ × Option ℚ
  | .ok => (0, none)
  | .fail j => (attempt + 1, some (binanceDelay (attempt + 1) j))

/-- One step of the OKX `run_okx` loop: state is the `backoff` variable; an
error sleeps `backoff` exactly (no jitter) and then sets
`backoff = min(backoff * 2, 30)`; a successful subscribe resets it to 1. -/
def okxStep (backoff : ℚ) : NetEvent → ℚ × Option ℚ
  | .ok => (1, none)
  | .fail _ => (min (backoff * 2) 30, some backoff)

/-- Run a client state machine over its own event trace, returning the final
state.  Each client owns its state; no trace of another client appears. -/
def runMachine {σ : Type} (step : σ → NetEvent → σ × Option ℚ) (init : σ) :
    List NetEvent → σ
  | [] => init
  | e :: es => runMachine step (step init e).1 es

/-- The number of consecutive failures at the end of a trace (0 after a
success or on an empty trace). -/
def consecFails (evs : List NetEvent) : ℕ :=
  evs.foldl (fun acc e => match e with | .ok => 0 | .fail _ => acc + 1) 0

/-! ## Derived definitions used in the statements -/

/-- The mapping of one side of a book. -/
def sideMap (ob : SimpleOrderBook) : Side → List (ℚ × ℚ)
  | .buy => ob.bids
  | .sell => ob.asks

/-- Replay a sequence of `apply_update` calls from the empty book. -/
def replayFromEmpty (updates : List (Side × ℚ × ℚ)) : SimpleOrderBook :=
  updates.foldl (fun b u => applyUpdate b u.1 u.2.1 u.2.2) SimpleOrderBook.empty

/-- The deletion test of `apply_update`: `size == 0 or math.isclose(size, 0.0)`. -/
def deleteCond (s : ℚ) : Prop := s = 0 ∨ isclose s 0 = true

instance (s : ℚ) : Decidable (deleteCond s) := by
  unfold deleteCond
  infer_instance

/-- A message with every unparseable level removed. -/
def stripMalformed (m : PyMsg) : PyMsg :=
  { b := m.b.map (List.filter (fun l => l.1.isSome && l.2.isSome))
    a := m.a.map (List.filter (fun l => l.1.isSome && l.2.isSome))
    mtype := m.mtype
    bids := m.bids.map (List.filter (fun l => l.1.isSome && l.2.isSome))
    asks := m.asks.map (List.filter (fun l => l.1.isSome && l.2.isSome))
    changes := m.changes.map
      (List.filter (fun c => c.price.isSome && c.size.isSome)) }

/-! ## Dictionary lemmas -/

lemma deleteCond_iff (s : ℚ) : deleteCond s ↔ s = 0 := by
  unfold deleteCond
  rw [isclose_zero_iff]
  exact or_self_iff

lemma dictKeys_cons (k₀ v₀ : ℚ) (rest : List (ℚ × ℚ)) :
    dictKeys ((k₀, v₀) :: rest) = k₀ :: dictKeys rest := rfl

lemma dictRemove_of_not_mem (m : List (ℚ × ℚ)) (k : ℚ)
    (h : k ∉ dictKeys m) : dictRemove m k = m := by
  induction m with
  | nil => rfl
  | cons e rest ih =>
    obtain ⟨k₀, v₀⟩ := e
    rw [dictKeys_cons, List.mem_cons, not_or] at h
    have hk : k₀ ≠ k := fun he => h.1 he.symm
    simp only [dictRemove, if_neg hk]
    rw [ih h.2]

lemma mem_of_mem_dictRemove {m : List (ℚ × ℚ)} {k : ℚ} {e : ℚ × ℚ}
    (h : e ∈ dictRemove m k) : e ∈ m := by
  induction m with
  | nil => exact absurd h (List.not_mem_nil e)
  | cons e₀ rest ih =>
    obtain ⟨k₀, v₀⟩ := e₀
    by_cases hk : k₀ = k
    · simp only [dictRemove, if_pos hk] at h
      exact List.mem_cons_of_mem _ h
    · simp only [dictRemove, if_neg hk, List.mem_cons] at h ⊢
      exact h.imp id ih

lemma mem_of_mem_dictInsert {m : List (ℚ × ℚ)} {k v : ℚ} {e : ℚ × ℚ}
    (h : e ∈ dictInsert m k v) : e ∈ m ∨ e = (k, v) := by
  induction m with
  | nil =>
    simp only [dictInsert, List.mem_singleton] at h
    exact Or.inr h
  | cons e₀ rest ih =>
    obtain ⟨k₀, v₀⟩ := e₀
    by_cases hk : k₀ = k
    · simp only [dictInsert, if_pos hk, List.mem_cons] at h
      rcases h with h | h
      · exact Or.inr h
      · exact Or.inl (List.mem_cons_of_mem _ h)
    · simp only [dictInsert, if_neg hk, List.mem_cons] at h
      rcases h with h | h
      · exact Or.inl (by rw [h]; exact List.mem_cons_self _ _)
      · rcases ih h with h' | h'
        · exact Or.inl (List.mem_cons_of_mem _ h')
        · exact Or.inr h'

lemma keys_dictInsert_subset {m : List (ℚ × ℚ)} {k v : ℚ} {q : ℚ}
    (h : q ∈ dictKeys (dictInsert m k v)) : q ∈ dictKeys m ∨ q = k := by
  simp only [dictKeys, List.mem_map] at h ⊢
  obtain ⟨e, he, hq⟩ := h
  rcases mem_of_mem_dictInsert he with h' | h'
  · exact Or.inl ⟨e, h', hq⟩
  · exact Or.inr (by rw [← hq, h'])

lemma keys_dictRemove_subset {m : List (ℚ × ℚ)} {k : ℚ} {q : ℚ}
    (h : q ∈ dictKeys (dictRemove m k)) : q ∈ dictKeys m := by
  simp only [dictKeys, List.mem_map] at h ⊢
  obtain ⟨e, he, hq⟩ := h
  exact ⟨e, mem_of_mem_dictRemove he, hq⟩

lemma keys_dictInsert_of_mem {m : List (ℚ × ℚ)} {k v : ℚ}
    (h : k ∈ dictKeys m) : dictKeys (dictInsert m k v) = dictKeys m := by
  induction m with
  | nil => exact absurd h (List.not_mem_nil k)
  | cons e rest ih =>
    obtain ⟨k₀, v₀⟩ := e
    rw [dictKeys_cons, List.mem_cons] at h
    by_cases hk : k₀ = k
    · subst hk
      simp [dictInsert, dictKeys_cons]
    · simp only [dictInsert, if_neg hk, dictKeys_cons]
      rcases h with h | h
      · exact absurd h.symm hk
      · rw [ih h]

lemma keys_dictInsert_of_not_mem {m : List (ℚ × ℚ)} {k v : ℚ}
    (h : k ∉ dictKeys m) :
    dictKeys (dictInsert m k v) = dictKeys m ++ [k] := by
  induction m with
  | nil => rfl
  | cons e rest ih =>
    obtain ⟨k₀, v₀⟩ := e
    rw [dictKeys_cons, List.mem_cons, not_or] at h
    have hk : k₀ ≠ k := fun he => h.1 he.symm
    simp only [dictInsert, if_neg hk, dictKeys_cons, ih h.2, List.cons_append]

lemma nodup_keys_dictInsert {m : List (ℚ × ℚ)} {k v : ℚ}
    (h : (dictKeys m).Nodup) : (dictKeys (dictInsert m k v)).Nodup := by
  by_cases hk : k ∈ dictKeys m
  · rwa [keys_dictInsert_of_mem hk]
  · rw [keys_dictInsert_of_not_mem hk]
    refine h.append (List.nodup_singleton k) ?_
    intro x hx hxk
    rw [List.mem_singleton] at hxk
    exact hk (hxk ▸ hx)

lemma nodup_keys_dictRemove {m : List (ℚ × ℚ)} {k : ℚ}
    (h : (dictKeys m).Nodup) : (dictKeys (dictRemove m k)).Nodup := by
  induction m with
  | nil => exact h
  | cons e rest ih =>
    obtain ⟨k₀, v₀⟩ := e
    rw [dictKeys_cons, List.nodup_cons] at h
    by_cases hk : k₀ = k
    · simp only [dictRemove, if_pos hk]
      exact h.2
    · simp only [dictRemove, if_neg hk, dictKeys_cons, List.nodup_cons]
      exact ⟨fun hm => h.1 (keys_dictRemove_subset hm), ih h.2⟩

lemma not_mem_keys_dictRemove {m : List (ℚ × ℚ)} {k : ℚ}
    (h : (dictKeys m).Nodup) : k ∉ dictKeys (dictRemove m k) := by
  induction m with
  | nil => simp [dictRemove, dictKeys]
  | cons e rest ih =>
    obtain ⟨k₀, v₀⟩ := e
    rw [dictKeys_cons, List.nodup_cons] at h
    by_cases hk : k₀ = k
    · simp only [dictRemove, if_pos hk]
      exact hk ▸ h.1
    · simp only [dictRemove, if_neg hk, dictKeys_cons, List.mem_cons, not_or]
      exact ⟨fun he => hk he.symm, ih h.2⟩

lemma dictGet_dictInsert_self (m : List (ℚ × ℚ)) (k v : ℚ) :
    dictGet (dictInsert m k v) k = some v := by
  induction m with
  | nil => simp [dictInsert, dictGet]
  | cons e rest ih =>
    obtain ⟨k₀, v₀⟩ := e
    by_cases hk : k₀ = k
    · simp [dictInsert, if_pos hk, dictGet]
    · simp [dictInsert, if_neg hk, dictGet, hk, ih]

/-! ## Book invariants -/

/-- The invariant maintained by `apply_update`: unique price keys and nonzero
sizes on both sides. -/
def BookInv (ob : SimpleOrderBook) : Prop :=
  (dictKeys ob.bids).Nodup ∧ (dictKeys ob.asks).Nodup ∧
  (∀ e ∈ ob.bids, e.2 ≠ 0) ∧ (∀ e ∈ ob.asks, e.2 ≠ 0)

lemma bookInv_empty : BookInv SimpleOrderBook.empty := by
  refine ⟨List.nodup_nil, List.nodup_nil, ?_, ?_⟩ <;> intro e he <;>
    exact absurd he (List.not_mem_nil e)

lemma bookInv_applyUpdate {ob : SimpleOrderBook} (side : Side) (p s : ℚ)
    (h : BookInv ob) : BookInv (applyUpdate ob side p s) := by
  obtain ⟨hnb, hna, hzb, hza⟩ := h
  by_cases hc : s = 0 ∨ isclose s 0 = true
  · cases side <;> simp only [applyUpdate, if_pos hc] <;>
      exact ⟨by first
          | exact nodup_keys_dictRemove hnb
          | exact hnb,
        by first
          | exact nodup_keys_dictRemove hna
          | exact hna,
        fun e he => by first
          | exact hzb e (mem_of_mem_dictRemove he)
          | exact hzb e he,
        fun e he => by first
          | exact hza e (mem_of_mem_dictRemove he)
          | exact hza e he⟩
  · have hs : s ≠ 0 := fun h0 => hc (Or.inl h0)
    cases side <;> simp only [applyUpdate, if_neg hc] <;>
      refine ⟨?_, ?_, ?_, ?_⟩ <;>
      first
        | exact nodup_keys_dictInsert hnb
        | exact nodup_keys_dictInsert hna
        | exact hnb
        | exact hna
        | exact hzb
        | exact hza
        | (intro e he
           rcases mem_of_mem_dictInsert he with h' | h'
           · first
               | exact hzb e h'
               | exact hza e h'
           · rw [h']
             exact hs)

lemma bookInv_replayFromEmpty (updates : List (Side × ℚ × ℚ)) :
    BookInv (replayFromEmpty updates) := by
  suffices h : ∀ (ob : SimpleOrderBook), BookInv ob →
      BookInv (updates.foldl (fun b u => applyUpdate b u.1 u.2.1 u.2.2) ob) from
    h SimpleOrderBook.empty bookInv_empty
  induction updates with
  | nil => exact fun ob h => h
  | cons u us ih =>
    intro ob h
    exact ih _ (bookInv_applyUpdate u.1 u.2.1 u.2.2 h)

/-! ## Frame and key-tracking lemmas for `apply_update` folds -/

lemma applyUpdate_buy_asks (ob : SimpleOrderBook) (p s : ℚ) :
    (applyUpdate ob .buy p s).asks = ob.asks := by
  unfold applyUpdate
  split <;> rfl

lemma applyUpdate_sell_bids (ob : SimpleOrderBook) (p s : ℚ) :
    (applyUpdate ob .sell p s).bids = ob.bids := by
  unfold applyUpdate
  split <;> rfl

lemma applyLevels_buy_asks (ls : List RawLevel) (ob : SimpleOrderBook) :
    (applyLevels .buy ob ls).asks = ob.asks := by
  induction ls generalizing ob with
  | nil => rfl
  | cons l ls ih =>
    obtain ⟨op, oq⟩ := l
    cases op <;> cases oq <;>
      simp only [applyLevels, List.foldl_cons] at * <;>
      first
        | exact ih ob
        | rw [ih, applyUpdate_buy_asks]

lemma applyLevels_sell_bids (ls : List RawLevel) (ob : SimpleOrderBook) :
    (applyLevels .sell ob ls).bids = ob.bids := by
  induction ls generalizing ob with
  | nil => rfl
  | cons l ls ih =>
    obtain ⟨op, oq⟩ := l
    cases op <;> cases oq <;>
      simp only [applyLevels, List.foldl_cons] at * <;>
      first
        | exact ih ob
        | rw [ih, applyUpdate_sell_bids]

lemma keys_applyUpdate_subset {ob : SimpleOrderBook} (side : Side) (p s q : ℚ)
    (h : q ∈ dictKeys (sideMap (applyUpdate ob side p s) side)) :
    q ∈ dictKeys (sideMap ob side) ∨ q = p := by
  by_cases hc : s = 0 ∨ isclose s 0 = true <;>
    cases side <;>
    simp only [applyUpdate, if_pos, if_neg, hc, if_true, if_false, sideMap] at h <;>
    simp only [sideMap]
  · exact Or.inl (keys_dictRemove_subset h)
  · exact Or.inl (keys_dictRemove_subset h)
  · exact keys_dictInsert_subset h
  · exact keys_dictInsert_subset h

lemma keys_applyLevels_subset (side : Side) (ls : List RawLevel)
    (ob : SimpleOrderBook) (q : ℚ)
    (h : q ∈ dictKeys (sideMap (applyLevels side ob ls) side)) :
    q ∈ dictKeys (sideMap ob side) ∨ ∃ l ∈ ls, l.1 = some q := by
  induction ls generalizing ob with
  | nil => exact Or.inl h
  | cons l ls ih =>
    obtain ⟨op, oq⟩ := l
    cases op with
    | none =>
      rcases ih ob (by simpa [applyLevels, List.foldl_cons] using h) with h' | ⟨l', hl', he⟩
      · exact Or.inl h'
      · exact Or.inr ⟨l', List.mem_cons_of_mem _ hl', he⟩
    | some p =>
      cases oq with
      | none =>
        rcases ih ob (by simpa [applyLevels, List.foldl_cons] using h) with h' | ⟨l', hl', he⟩
        · exact Or.inl h'
        · exact Or.inr ⟨l', List.mem_cons_of_mem _ hl', he⟩
      | some sz =>
        rcases ih (applyUpdate ob side p sz)
            (by simpa [applyLevels, List.foldl_cons] using h) with h' | ⟨l', hl', he⟩
        · rcases keys_applyUpdate_subset side p sz q h' with h'' | h''
          · exact Or.inl h''
          · exact Or.inr ⟨(some p, some sz), List.mem_cons_self _ _, by rw [h'']⟩
        · exact Or.inr ⟨l', List.mem_cons_of_mem _ hl', he⟩

/-! ## Sorting lemmas for `top_n` -/

lemma mem_insertByLe (le : (ℚ × ℚ) → (ℚ × ℚ) → Bool) (x y : ℚ × ℚ)
    (l : List (ℚ × ℚ)) : y ∈ insertByLe le x l ↔ y = x ∨ y ∈ l := by
  induction l with
  | nil => simp [insertByLe]
  | cons z zs ih =>
    by_cases h : le x z = true
    · simp [insertByLe, h]
    · simp only [insertByLe, if_neg h, List.mem_cons, ih]
      tauto

lemma length_insertByLe (le : (ℚ × ℚ) → (ℚ × ℚ) → Bool) (x : ℚ × ℚ)
    (l : List (ℚ × ℚ)) : (insertByLe le x l).length = l.length + 1 := by
  induction l with
  | nil => rfl
  | cons z zs ih =>
    by_cases h : le x z = true
    · simp [insertByLe, h]
    · simp [insertByLe, h, ih]

lemma length_sortByLe (le : (ℚ × ℚ) → (ℚ × ℚ) → Bool) (l : List (ℚ × ℚ)) :
    (sortByLe le l).length = l.length := by
  induction l with
  | nil => rfl
  | cons x xs ih => simp [sortByLe, length_insertByLe, ih]

lemma pairwise_insertByLe (le : (ℚ × ℚ) → (ℚ × ℚ) → Bool)
    (htot : ∀ a b, le a b = true ∨ le b a = true)
    (htrans : ∀ a b c, le a b = true → le b c = true → le a c = true)
    (x : ℚ × ℚ) (l : List (ℚ × ℚ))
    (h : l.Pairwise (fun a b => le a b = true)) :
    (insertByLe le x l).Pairwise (fun a b => le a b = true) := by
  induction l with
  | nil => simp [insertByLe]
  | cons y ys ih =>
    rw [List.pairwise_cons] at h
    by_cases hxy : le x y = true
    · rw [insertByLe, if_pos hxy, List.pairwise_cons]
      refine ⟨?_, List.pairwise_cons.mpr h⟩
      intro z hz
      rcases List.mem_cons.mp hz with hz | hz
      · rw [hz]
        exact hxy
      · exact htrans x y z hxy (h.1 z hz)
    · rw [insertByLe, if_neg hxy, List.pairwise_cons]
      refine ⟨?_, ih h.2⟩
      intro z hz
      rcases (mem_insertByLe le x z ys).mp hz with hz | hz
      · rw [hz]
        rcases htot x y with h' | h'
        · exact absurd h' hxy
        · exact h'
      · exact h.1 z hz

lemma pairwise_sortByLe (le : (ℚ × ℚ) → (ℚ × ℚ) → Bool)
    (htot : ∀ a b, le a b = true ∨ le b a = true)
    (htrans : ∀ a b c, le a b = true → le b c = true → le a c = true)
    (l : List (ℚ × ℚ)) :
    (sortByLe le l).Pairwise (fun a b => le a b = true) := by
  induction l with
  | nil => simp [sortByLe]
  | cons x xs ih => exact pairwise_insertByLe le htot htrans x _ ih

lemma bidLe_total (a b : ℚ × ℚ) : bidLe a b = true ∨ bidLe b a = true := by
  unfold bidLe
  rcases le_total b.1 a.1 with h | h
  · exact Or.inl (by simpa using h)
  · exact Or.inr (by simpa using h)

lemma bidLe_trans (a b c : ℚ × ℚ) (h₁ : bidLe a b = true)
    (h₂ : bidLe b c = true) : bidLe a c = true := by
  unfold bidLe at *
  simp only [decide_eq_true_eq] at *
  exact le_trans h₂ h₁

lemma askLe_total (a b : ℚ × ℚ) : askLe a b = true ∨ askLe b a = true := by
  unfold askLe
  rcases le_total a.1 b.1 with h | h
  · exact Or.inl (by simpa using h)
  · exact Or.inr (by simpa using h)

lemma askLe_trans (a b c : ℚ × ℚ) (h₁ : askLe a b = true)
    (h₂ : askLe b c = true) : askLe a c = true := by
  unfold askLe at *
  simp only [decide_eq_true_eq] at *
  exact le_trans h₁ h₂

/-! ## Backoff state-machine lemmas -/

/-- Count of consecutive trailing failures, starting from an inherited
count `a`. -/
def consecFrom (a : ℕ) (evs : List NetEvent) : ℕ :=
  evs.foldl (fun acc e => match e with | .ok => 0 | .fail _ => acc + 1) a

lemma consecFails_eq_consecFrom (evs : List NetEvent) :
    consecFails evs = consecFrom 0 evs := rfl

lemma binance_run (a : ℕ) (evs : List NetEvent) :
    runMachine binanceStep a evs = consecFrom a evs := by
  induction evs generalizing a with
  | nil => rfl
  | cons e es ih =>
    cases e with
    | ok => exact ih 0
    | fail j => exact ih (a + 1)

lemma okx_cap_double (a : ℕ) :
    min ((2 : ℚ) ^ a) 30 * 2 = min ((2 : ℚ) ^ (a + 1)) 60 := by
  rw [min_mul_of_nonneg _ _ (by norm_num : (0 : ℚ) ≤ 2), pow_succ]
  norm_num

lemma okx_run (a : ℕ) (evs : List NetEvent) :
    runMachine okxStep (min ((2 : ℚ) ^ a) 30) evs =
      min ((2 : ℚ) ^ consecFrom a evs) 30 := by
  induction evs generalizing a with
  | nil => rfl
  | cons e es ih =>
    cases e with
    | ok =>
      have h0 : runMachine okxStep (min ((2 : ℚ) ^ 0) 30) es =
          min ((2 : ℚ) ^ consecFrom 0 es) 30 := ih 0
      simpa [runMachine, okxStep, consecFrom, min_eq_left,
        (by norm_num : ((2 : ℚ) ^ (0 : ℕ)) = 1),
        (by norm_num : (1 : ℚ) ≤ 30)] using h0
    | fail j =>
      have h1 : runMachine okxStep (min ((2 : ℚ) ^ (a + 1)) 30) es =
          min ((2 : ℚ) ^ consecFrom (a + 1) es) 30 := ih (a + 1)
      have h2 : min (min ((2 : ℚ) ^ a) 30 * 2) 30 =
          min ((2 : ℚ) ^ (a + 1)) 30 := by
        rw [okx_cap_double, min_assoc]
        norm_num
      simp only [runMachine, okxStep, consecFrom, List.foldl_cons]
      rw [h2]
      exact h1

/-! ## Profit-sign lemma for the no-arbitrage tick -/

lemma profitPct_nonpos (bid ask fb fs : ℚ) (hbid : 0 ≤ bid) (hask : 0 ≤ ask)
    (hcross : bid ≤ ask) (hfb : 0 ≤ fb) (hfs : 0 ≤ fs) :
    profitPct bid ask fb fs ≤ 0 := by
  unfold profitPct netReceive netCost
  by_cases hnc : ask * (1 + fb) = 0
  · simp [hnc]
  · have hncpos : 0 < ask * (1 + fb) :=
      lt_of_le_of_ne (by nlinarith) (Ne.symm hnc)
    have hnr : bid * (1 - fs) ≤ ask * (1 + fb) := by nlinarith
    rw [if_pos hnc, div_nonpos_iff]
    right
    constructor
    · linarith
    · linarith

/-! ## Evaluation helpers for concrete instances -/

lemma pyLower_binance : pyLower "binance" = "binance" := by decide

lemma pyLower_coinbase : pyLower "coinbase" = "coinbase" := by decide

lemma binance_ne_coinbase : ("binance" : String) ≠ "coinbase" := by decide

/-- Version of `apply_update` with the `isclose` test resolved: the deletion branch is
taken exactly for size 0. -/
lemma applyUpdate_eq (ob : SimpleOrderBook) (side : Side) (p s : ℚ) :
    applyUpdate ob side p s =
      if s = 0 then
        match side with
        | .buy => { ob with bids := dictRemove ob.bids p }
        | .sell => { ob with asks := dictRemove ob.asks p }
      else
        match side with
        | .buy => { ob with bids := dictInsert ob.bids p s }
        | .sell => { ob with asks := dictInsert ob.asks p s } := by
  unfold applyUpdate
  refine if_congr ?_ rfl rfl
  rw [isclose_zero_iff]
  exact or_self_iff

lemma processMessage_binance (mgr : Manager) (m : PyMsg) :
    processMessage mgr "binance" m =
      { mgr with binance := processBinance mgr.binance m } := by
  unfold processMessage
  rw [if_pos pyLower_binance]

lemma processMessage_coinbase (mgr : Manager) (m : PyMsg) :
    processMessage mgr "coinbase" m =
      { mgr with coinbase := processCoinbase mgr.coinbase m } := by
  unfold processMessage
  rw [if_neg (pyLower_coinbase ▸ binance_ne_coinbase ∘ Eq.symm), if_pos pyLower_coinbase]

lemma applyLevels_filter (side : Side) (ls : List RawLevel)
    (ob : SimpleOrderBook) :
    applyLevels side ob (ls.filter (fun l => l.1.isSome && l.2.isSome)) =
      applyLevels side ob ls := by
  induction ls generalizing ob with
  | nil => rfl
  | cons l ls ih =>
    obtain ⟨op, oq⟩ := l
    cases op with
    | none =>
      rw [List.filter_cons_of_neg (by simp)]
      have hr : applyLevels side ob ((none, oq) :: ls) = applyLevels side ob ls := rfl
      rw [hr]
      exact ih ob
    | some p =>
      cases oq with
      | none =>
        rw [List.filter_cons_of_neg (by simp)]
        have hr : applyLevels side ob ((some p, none) :: ls) =
            applyLevels side ob ls := rfl
        rw [hr]
        exact ih ob
      | some sz =>
        rw [List.filter_cons_of_pos (by simp)]
        have hl : applyLevels side ob
            ((some p, some sz) :: ls.filter (fun l => l.1.isSome && l.2.isSome)) =
            applyLevels side (applyUpdate ob side p sz)
              (ls.filter (fun l => l.1.isSome && l.2.isSome)) := rfl
        have hr : applyLevels side ob ((some p, some sz) :: ls) =
            applyLevels side (applyUpdate ob side p sz) ls := rfl
        rw [hl, hr]
        exact ih _

lemma applyChanges_filter (cs : List RawChange) (ob : SimpleOrderBook) :
    applyChanges ob (cs.filter (fun c => c.price.isSome && c.size.isSome)) =
      applyChanges ob cs := by
  induction cs generalizing ob with
  | nil => rfl
  | cons c cs ih =>
    obtain ⟨sd, op, oq⟩ := c
    cases op with
    | none =>
      rw [List.filter_cons_of_neg (by simp)]
      have hr : applyChanges ob (⟨sd, none, oq⟩ :: cs) = applyChanges ob cs := rfl
      rw [hr]
      exact ih ob
    | some p =>
      cases oq with
      | none =>
        rw [List.filter_cons_of_neg (by simp)]
        have hr : applyChanges ob (⟨sd, some p, none⟩ :: cs) =
            applyChanges ob cs := rfl
        rw [hr]
        exact ih ob
      | some sz =>
        rw [List.filter_cons_of_pos (by simp)]
        have hl : applyChanges ob
            (⟨sd, some p, some sz⟩ :: cs.filter (fun c => c.price.isSome && c.size.isSome)) =
            applyChanges (applyUpdate ob (changeSide sd) p sz)
              (cs.filter (fun c => c.price.isSome && c.size.isSome)) := rfl
        have hr : applyChanges ob (⟨sd, some p, some sz⟩ :: cs) =
            applyChanges (applyUpdate ob (changeSide sd) p sz) cs := rfl
        rw [hl, hr]
        exact ih _

lemma getD_map_filter {α : Type} (o : Option (List α)) (f : α → Bool) :
    (o.map (List.filter f)).getD [] = (o.getD []).filter f := by
  cases o <;> rfl

lemma processBinance_strip (ob : SimpleOrderBook) (m : PyMsg) :
    processBinance ob (stripMalformed m) = processBinance ob m := by
  unfold processBinance stripMalformed
  simp only [Option.isSome_map', getD_map_filter, applyLevels_filter]

lemma processCoinbase_strip (ob : SimpleOrderBook) (m : PyMsg) :
    processCoinbase ob (stripMalformed m) = processCoinbase ob m := by
  unfold processCoinbase stripMalformed
  simp only [Option.isSome_map', getD_map_filter, applyLevels_filter,
    applyChanges_filter]

lemma runMachine_append {σ : Type} (step : σ → NetEvent → σ × Option ℚ)
    (init : σ) (evs : List NetEvent) (e : NetEvent) :
    runMachine step init (evs ++ [e]) = (step (runMachine step init evs) e).1 := by
  induction evs generalizing init with
  | nil => rfl
  | cons x xs ih => exact ih _

lemma scanTick_of_two (books : List (String × BookEntry)) (thr fb fs : ℚ)
    (h : 2 ≤ books.length) :
    scanTick books thr fb fs =
      (validBooks books).flatMap
        (fun se =>
          (validBooks books).filterMap
            (fun be =>
              if se.1 = be.1 then none
              else if thr ≤ profitPct se.2.best_bid be.2.best_ask fb fs then
                some (mkOpp se.1 be.1 se.2 be.2 fb fs)
              else none)) := by
  unfold scanTick
  rw [if_neg (by omega)]

/-! # Claim theorems -/

/-- C7: for all sequences of incremental updates applied to an initially
empty `ExchangeBook`, an upsert of a level at `(side, price)` with size > 0
followed immediately by an update at the same side and price with size 0
results in that price being absent from the mapping of that side
(delete-wins-last). -/
theorem upsert_then_delete_absent (updates : List (Side × ℚ × ℚ))
    (side : Side) (p s : ℚ) (hs : 0 < s) :
    p ∉ dictKeys (sideMap
      (applyUpdate (applyUpdate (replayFromEmpty updates) side p s) side p 0)
      side) := by
  obtain ⟨hnb, hna, -, -⟩ := bookInv_replayFromEmpty updates
  have hs0 : s ≠ 0 := ne_of_gt hs
  cases side with
  | buy =>
    have e1 : applyUpdate (replayFromEmpty updates) .buy p s =
        { replayFromEmpty updates with
            bids := dictInsert (replayFromEmpty updates).bids p s } := by
      rw [applyUpdate_eq, if_neg hs0]
    have e2 : applyUpdate (applyUpdate (replayFromEmpty updates) .buy p s) .buy p 0 =
        { applyUpdate (replayFromEmpty updates) .buy p s with
            bids := dictRemove (applyUpdate (replayFromEmpty updates) .buy p s).bids p } := by
      rw [applyUpdate_eq, if_pos rfl]
    rw [e2, e1]
    exact not_mem_keys_dictRemove (nodup_keys_dictInsert hnb)
  | sell =>
    have e1 : applyUpdate (replayFromEmpty updates) .sell p s =
        { replayFromEmpty updates with
            asks := dictInsert (replayFromEmpty updates).asks p s } := by
      rw [applyUpdate_eq, if_neg hs0]
    have e2 : applyUpdate (applyUpdate (replayFromEmpty updates) .sell p s) .sell p 0 =
        { applyUpdate (replayFromEmpty updates) .sell p s with
            asks := dictRemove (applyUpdate (replayFromEmpty updates) .sell p s).asks p } := by
      rw [applyUpdate_eq, if_pos rfl]
    rw [e2, e1]
    exact not_mem_keys_dictRemove (nodup_keys_dictInsert hna)

/-- C7 witness: on the empty book, inserting price 3 with size 2 and then
deleting it with size 0 leaves the bid side without price 3. -/
theorem upsert_then_delete_absent_witness :
    (0 : ℚ) < 2 ∧
    (3 : ℚ) ∉ dictKeys (sideMap
      (applyUpdate (applyUpdate (replayFromEmpty []) .buy 3 2) .buy 3 0) .buy) :=
  ⟨by norm_num, upsert_then_delete_absent [] .buy 3 2 (by norm_num)⟩

/-- C10: for every `SimpleOrderBook` state, every side and every price not
present in the mapping of that side, `apply_update` with size 0 (or `isclose` to
0) leaves the book exactly unchanged: deleting an absent level is a no-op. -/
theorem delete_absent_noop (ob : SimpleOrderBook) (side : Side) (p s : ℚ)
    (habsent : p ∉ dictKeys (sideMap ob side))
    (hdel : s = 0 ∨ isclose s 0 = true) :
    applyUpdate ob side p s = ob := by
  unfold applyUpdate
  rw [if_pos hdel]
  cases side with
  | buy =>
    show { ob with bids := dictRemove ob.bids p } = ob
    rw [dictRemove_of_not_mem ob.bids p habsent]
  | sell =>
    show { ob with asks := dictRemove ob.asks p } = ob
    rw [dictRemove_of_not_mem ob.asks p habsent]

/-- C10 witness: deleting absent price 3 from a book holding only bid price 1
returns the book unchanged. -/
theorem delete_absent_noop_witness :
    (3 : ℚ) ∉ dictKeys (sideMap ⟨[(1, 2)], []⟩ .buy) ∧
    ((0 : ℚ) = 0 ∨ isclose 0 0 = true) ∧
    applyUpdate ⟨[(1, 2)], []⟩ .buy 3 0 = ⟨[(1, 2)], []⟩ :=
  ⟨by norm_num [sideMap, dictKeys], Or.inl rfl,
    delete_absent_noop ⟨[(1, 2)], []⟩ .buy 3 0
      (by norm_num [sideMap, dictKeys]) (Or.inl rfl)⟩

/-- C8: for every book state and every `n`, `top_n` returns bids with
non-increasing prices and asks with non-decreasing prices, each of length at
most `n` and at most the current number of levels on that side, computed from
the current mappings. -/
theorem top_n_sorted_truncated (ob : SimpleOrderBook) (n : ℕ) :
    (topN ob n).1.Pairwise (fun x y => y.1 ≤ x.1) ∧
    (topN ob n).2.Pairwise (fun x y => x.1 ≤ y.1) ∧
    (topN ob n).1.length ≤ n ∧ (topN ob n).2.length ≤ n ∧
    (topN ob n).1.length ≤ ob.bids.length ∧
    (topN ob n).2.length ≤ ob.asks.length := by
  refine ⟨?_, ?_, ?_, ?_, ?_, ?_⟩
  · have h := (pairwise_sortByLe bidLe bidLe_total bidLe_trans ob.bids).sublist
      (List.take_sublist n _)
    exact h.imp (fun hab => by simpa [bidLe] using hab)
  · have h := (pairwise_sortByLe askLe askLe_total askLe_trans ob.asks).sublist
      (List.take_sublist n _)
    exact h.imp (fun hab => by simpa [askLe] using hab)
  · rw [show (topN ob n).1 = (sortByLe bidLe ob.bids).take n from rfl,
      List.length_take]
    exact min_le_left _ _
  · rw [show (topN ob n).2 = (sortByLe askLe ob.asks).take n from rfl,
      List.length_take]
    exact min_le_left _ _
  · rw [show (topN ob n).1 = (sortByLe bidLe ob.bids).take n from rfl,
      List.length_take, length_sortByLe]
    exact min_le_right _ _
  · rw [show (topN ob n).2 = (sortByLe askLe ob.asks).take n from rfl,
      List.length_take, length_sortByLe]
    exact min_le_right _ _

/-- C9: a level with malformed (non-numeric) price or size is dropped for
that level only: processing any message equals processing the same message
with the malformed levels removed, so every remaining well-formed level is
still applied, and `process_message` is total (it neither aborts nor
raises). -/
theorem malformed_levels_dropped (mgr : Manager) (exchange : String)
    (m : PyMsg) :
    processMessage mgr exchange m =
      processMessage mgr exchange (stripMalformed m) := by
  unfold processMessage
  by_cases h1 : pyLower exchange = "binance"
  · simp only [if_pos h1, processBinance_strip]
  · by_cases h2 : pyLower exchange = "coinbase"
    · simp only [if_neg h1, if_pos h2, processCoinbase_strip]
    · simp only [if_neg h1, if_neg h2]

/-- C3 (code behaviour at the failing input): `enqueue_log` awaits
`asyncio.Queue.put`, which on a full queue waits for a free slot instead of
raising `QueueFull`; so on a full queue the producer blocks, nothing is
dropped and no drop counter is incremented — the `except QueueFull` branch is
dead code. -/
theorem enqueue_log_full_queue_waits (q : LogQueue) (path text : String)
    (hfull : q.maxsize ≤ q.items.length) :
    enqueueLog q path text = PutOutcome.waits := by
  unfold enqueueLog queuePut
  rw [if_neg (Nat.not_lt.mpr hfull)]

/-- C3 witness: a queue with capacity 1 holding one item makes the producer
wait. -/
theorem enqueue_log_full_queue_waits_witness :
    (1 : ℕ) ≤ ([("p", "x")] : List (String × String)).length ∧
    enqueueLog ⟨[("p", "x")], 1⟩ "p" "y" = PutOutcome.waits :=
  ⟨by decide, enqueue_log_full_queue_waits ⟨[("p", "x")], 1⟩ "p" "y" (by decide)⟩

/-- C1 counterexample: the claim says a level whose parsed size is negative
is treated as a parse error and discarded, and that every present key has
size > 0.  But `float("-5")` parses fine and `apply_update` performs no sign
check: processing a Binance update with level `["10", "-5"]` inserts price 10
with size −5, a present key whose size is not > 0. -/
theorem negative_size_inserted_counterexample :
    dictGet (processMessage Manager.init "binance"
      ⟨some [(some 10, some (-5))], none, none, none, none, none⟩).binance.bids
      10 = some (-5) ∧
    ¬ (0 : ℚ) < -5 := by
  constructor
  · rw [processMessage_binance]
    simp only [Manager.init, processBinance, applyLevels, List.foldl_cons,
      List.foldl_nil, Option.getD, applyUpdate_eq]
    norm_num [SimpleOrderBook.empty, dictInsert, dictGet]
  · norm_num

/-- C1 (amended): in every book reachable from the empty book by
`apply_update` calls, every present key on either side has *nonzero* size
(negative sizes are inserted as-is, not discarded); an update whose size is 0
or `isclose` to 0 removes the level and never inserts it, and any other size
is upserted at its price. -/
theorem reachable_book_sizes_nonzero (updates : List (Side × ℚ × ℚ))
    (side : Side) (p s : ℚ) :
    (∀ e ∈ (replayFromEmpty updates).bids, e.2 ≠ 0) ∧
    (∀ e ∈ (replayFromEmpty updates).asks, e.2 ≠ 0) ∧
    ((s = 0 ∨ isclose s 0 = true) →
      p ∉ dictKeys
        (sideMap (applyUpdate (replayFromEmpty updates) side p s) side)) ∧
    (¬ (s = 0 ∨ isclose s 0 = true) →
      dictGet (sideMap (applyUpdate (replayFromEmpty updates) side p s) side)
        p = some s) := by
  obtain ⟨hnb, hna, hzb, hza⟩ := bookInv_replayFromEmpty updates
  refine ⟨hzb, hza, ?_, ?_⟩
  · intro hdel
    cases side with
    | buy =>
      unfold applyUpdate
      rw [if_pos hdel]
      exact not_mem_keys_dictRemove hnb
    | sell =>
      unfold applyUpdate
      rw [if_pos hdel]
      exact not_mem_keys_dictRemove hna
  · intro hins
    cases side with
    | buy =>
      unfold applyUpdate
      rw [if_neg hins]
      exact dictGet_dictInsert_self _ p s
    | sell =>
      unfold applyUpdate
      rw [if_neg hins]
      exact dictGet_dictInsert_self _ p s

/-- C1 witness: after inserting price 10 with size −5 from the empty book, a
deletion of price 10 with size 0 removes the key. -/
theorem reachable_book_sizes_nonzero_witness :
    ((0 : ℚ) = 0 ∨ isclose 0 0 = true) ∧
    (10 : ℚ) ∉ dictKeys
      (sideMap (applyUpdate (replayFromEmpty [(Side.buy, 10, -5)]) .buy 10 0)
        .buy) :=
  ⟨Or.inl rfl,
    (reachable_book_sizes_nonzero [(Side.buy, 10, -5)] .buy 10 0).2.2.1
      (Or.inl rfl)⟩

/-- C2 counterexample: the claim says a full-replace message carrying
explicit bid and ask lists clears the mappings of the target exchange for *every*
exchange.  The Binance branch of `process_message` has no snapshot handling:
a Binance message carrying full `b` and `a` lists is applied incrementally,
so a price level from an earlier incremental update (price 5) survives it. -/
theorem binance_snapshot_not_replacing_counterexample :
    dictGet (processMessage
      (processMessage Manager.init "binance"
        ⟨some [(some 5, some 1)], none, none, none, none, none⟩)
      "binance"
      ⟨some [(some 10, some 2)], some [(some 11, some 3)], none, none, none,
        none⟩).binance.bids 5 = some 1 := by
  rw [processMessage_binance, processMessage_binance]
  simp only [Manager.init, processBinance, applyLevels, List.foldl_cons,
    List.foldl_nil, Option.getD, applyUpdate_eq]
  norm_num [SimpleOrderBook.empty, dictInsert, dictGet]

/-- C2 (amended): for a *Coinbase* `type == "snapshot"` message, processing
clears the coinbase book and rebuilds it from the snapshot levels alone: the
result equals the snapshot applied to an empty book (independent of any prior
incremental state), `best_bid`/`best_ask` reflect exactly the contents of
the snapshot, every remaining bid (ask) price comes from a parsed snapshot bid
(ask) level, and the binance book is untouched. -/
theorem coinbase_snapshot_replaces (mgr : Manager) (m : PyMsg)
    (hm : m.mtype = some "snapshot") :
    (processMessage mgr "coinbase" m).coinbase =
      applyLevels .sell
        (applyLevels .buy SimpleOrderBook.empty (m.bids.getD []))
        (m.asks.getD []) ∧
    (processMessage mgr "coinbase" m).coinbase =
      (processMessage Manager.init "coinbase" m).coinbase ∧
    bestBid (processMessage mgr "coinbase" m).coinbase =
      bestBid (applyLevels .sell
        (applyLevels .buy SimpleOrderBook.empty (m.bids.getD []))
        (m.asks.getD [])) ∧
    bestAsk (processMessage mgr "coinbase" m).coinbase =
      bestAsk (applyLevels .sell
        (applyLevels .buy SimpleOrderBook.empty (m.bids.getD []))
        (m.asks.getD [])) ∧
    dictKeys (processMessage mgr "coinbase" m).coinbase.bids ⊆
      (m.bids.getD []).filterMap Prod.fst ∧
    dictKeys (processMessage mgr "coinbase" m).coinbase.asks ⊆
      (m.asks.getD []).filterMap Prod.fst ∧
    (processMessage mgr "coinbase" m).binance = mgr.binance := by
  have hmain : ∀ (g : Manager), (processMessage g "coinbase" m).coinbase =
      applyLevels .sell
        (applyLevels .buy SimpleOrderBook.empty (m.bids.getD []))
        (m.asks.getD []) := by
    intro g
    rw [processMessage_coinbase]
    show processCoinbase g.coinbase m = _
    unfold processCoinbase
    rw [if_pos hm]
  refine ⟨hmain mgr, by rw [hmain mgr, hmain Manager.init], by rw [hmain mgr],
    by rw [hmain mgr], ?_, ?_, by rw [processMessage_coinbase]⟩
  · intro p hp
    rw [hmain mgr] at hp
    rw [applyLevels_sell_bids] at hp
    rcases keys_applyLevels_subset .buy (m.bids.getD []) SimpleOrderBook.empty
        p hp with h | ⟨l, hl, he⟩
    · exact absurd h (by simp [sideMap, SimpleOrderBook.empty, dictKeys])
    · exact List.mem_filterMap.mpr ⟨l, hl, he⟩
  · intro p hp
    rw [hmain mgr] at hp
    rcases keys_applyLevels_subset .sell (m.asks.getD [])
        (applyLevels .buy SimpleOrderBook.empty (m.bids.getD [])) p hp with
      h | ⟨l, hl, he⟩
    · rw [show sideMap (applyLevels .buy SimpleOrderBook.empty (m.bids.getD []))
          .sell = (applyLevels .buy SimpleOrderBook.empty (m.bids.getD [])).asks
          from rfl, applyLevels_buy_asks] at h
      exact absurd h (by simp [SimpleOrderBook.empty, dictKeys])
    · exact List.mem_filterMap.mpr ⟨l, hl, he⟩

/-- C2 witness: a coinbase snapshot `{bids: [["10","2"]], asks: [["11","3"]]}`
applied on top of prior coinbase state (a bid at price 7) rebuilds the book
from the snapshot alone. -/
theorem coinbase_snapshot_replaces_witness :
    (processMessage
      (processMessage Manager.init "coinbase"
        ⟨none, none, none, none, none, some [⟨"buy", some 7, some 4⟩]⟩)
      "coinbase"
      ⟨none, none, some "snapshot", some [(some 10, some 2)],
        some [(some 11, some 3)], none⟩).coinbase =
      applyLevels .sell
        (applyLevels .buy SimpleOrderBook.empty
          ((some ([((some 10 : Option ℚ), (some 2 : Option ℚ))])).getD []))
        ((some ([((some 11 : Option ℚ), (some 3 : Option ℚ))])).getD []) :=
  (coinbase_snapshot_replaces
    (processMessage Manager.init "coinbase"
      ⟨none, none, none, none, none, some [⟨"buy", some 7, some 4⟩]⟩)
    ⟨none, none, some "snapshot", some [(some 10, some 2)],
      some [(some 11, some 3)], none⟩ rfl).1

/-- C4: on a scan tick with at least two exchanges, for every ordered pair of
distinct valid exchanges the engine computes
`net_receive = best_bid*(1-fee_sell)`, `net_cost = best_ask*(1+fee_buy)`,
`net_spread = net_receive - net_cost`, `profit_pct = net_spread/net_cost`
(0 when `net_cost = 0`), and emits the opportunity for the pair iff
`profit_pct ≥ threshold`; in particular for best_bid 101 on A, best_ask 100
on B, fees 0.001 and threshold 0.001 exactly the (sell=A, buy=B) opportunity
is emitted, with net_cost 100.1, net_receive 100.899, net_spread 0.799 and
profit_pct 799/100100 ≈ 0.00798. -/
theorem scan_emits_iff_profitable (books : List (String × BookEntry))
    (thr fb fs : ℚ) (sellEx buyEx : String) (sd bd : ValidEntry)
    (h2 : 2 ≤ books.length)
    (hs : (sellEx, sd) ∈ validBooks books)
    (hb : (buyEx, bd) ∈ validBooks books)
    (hne : sellEx ≠ buyEx) :
    (mkOpp sellEx buyEx sd bd fb fs ∈ scanTick books thr fb fs ↔
      thr ≤ profitPct sd.best_bid bd.best_ask fb fs) ∧
    (mkOpp sellEx buyEx sd bd fb fs).net_spread =
      netReceive sd.best_bid fs - netCost bd.best_ask fb ∧
    (netCost bd.best_ask fb = 0 →
      profitPct sd.best_bid bd.best_ask fb fs = 0) ∧
    scanTick [("A", ⟨some 101, some (203 / 2), some "tA"⟩),
        ("B", ⟨some (199 / 2), some 100, some "tB"⟩)]
        (1 / 1000) (1 / 1000) (1 / 1000) =
      [⟨"A", "B", 101, 100, 1, 799 / 1000, 799 / 100100, some "tA",
        some "tB"⟩] ∧
    netCost 100 (1 / 1000) = 1001 / 10 ∧
    netReceive 101 (1 / 1000) = 100899 / 1000 ∧
    profitPct 101 100 (1 / 1000) (1 / 1000) = 799 / 100100 ∧
    |(799 : ℚ) / 100100 - 798 / 100000| < 1 / 100000 ∧
    ((1 : ℚ) / 1000 ≤ 799 / 100100) := by
  refine ⟨⟨?_, ?_⟩, rfl, ?_, ?_, by norm_num [netCost],
    by norm_num [netReceive], by norm_num [profitPct, netReceive, netCost],
    by rw [abs_of_pos (show (0 : ℚ) < 799 / 100100 - 798 / 100000 by norm_num)]
       norm_num,
    by norm_num⟩
  · intro hmem
    rw [scanTick_of_two books thr fb fs h2] at hmem
    obtain ⟨se, hse, hmem2⟩ := List.mem_flatMap.mp hmem
    obtain ⟨be, hbe, heq⟩ := List.mem_filterMap.mp hmem2
    by_cases hc1 : se.1 = be.1
    · rw [if_pos hc1] at heq
      exact absurd heq (by simp)
    · rw [if_neg hc1] at heq
      by_cases hc2 : thr ≤ profitPct se.2.best_bid be.2.best_ask fb fs
      · rw [if_pos hc2] at heq
        have hinj := Option.some.inj heq
        have hpp : profitPct se.2.best_bid be.2.best_ask fb fs =
            profitPct sd.best_bid bd.best_ask fb fs :=
          congrArg Opp.profit_pct hinj
        rwa [hpp] at hc2
      · rw [if_neg hc2] at heq
        exact absurd heq (by simp)
  · intro hthr
    rw [scanTick_of_two books thr fb fs h2]
    refine List.mem_flatMap.mpr ⟨(sellEx, sd), hs, ?_⟩
    refine List.mem_filterMap.mpr ⟨(buyEx, bd), hb, ?_⟩
    show (if sellEx = buyEx then none
      else if thr ≤ profitPct sd.best_bid bd.best_ask fb fs then
        some (mkOpp sellEx buyEx sd bd fb fs)
      else none) = some (mkOpp sellEx buyEx sd bd fb fs)
    rw [if_neg hne, if_pos hthr]
  · intro h
    simp [profitPct, h]
  · rw [scanTick_of_two _ _ _ _ (by norm_num)]
    have hv : validBooks [("A", ⟨some 101, some (203 / 2), some "tA"⟩),
        ("B", ⟨some (199 / 2), some 100, some "tB"⟩)] =
        [("A", ⟨101, 203 / 2, some "tA"⟩), ("B", ⟨199 / 2, 100, some "tB"⟩)] := by
      simp [validBooks]
    rw [hv]
    norm_num [mkOpp, profitPct, netReceive, netCost, List.flatMap_cons,
      List.flatMap_nil, List.filterMap_cons, List.filterMap_nil,
      (show ("A" : String) ≠ "B" by decide), (show ("B" : String) ≠ "A" by decide)]

/-- C4 witness: the concrete pair of the claim (sell on A at 101, buy on B at 100,
fees and threshold 0.001) is emitted. -/
theorem scan_emits_iff_profitable_witness :
    2 ≤ ([("A", ⟨some 101, some (203 / 2), some "tA"⟩),
      ("B", ⟨some (199 / 2), some 100, some "tB"⟩)] :
        List (String × BookEntry)).length ∧
    ("A", (⟨101, 203 / 2, some "tA"⟩ : ValidEntry)) ∈
      validBooks [("A", ⟨some 101, some (203 / 2), some "tA"⟩),
        ("B", ⟨some (199 / 2), some 100, some "tB"⟩)] ∧
    ("B", (⟨199 / 2, 100, some "tB"⟩ : ValidEntry)) ∈
      validBooks [("A", ⟨some 101, some (203 / 2), some "tA"⟩),
        ("B", ⟨some (199 / 2), some 100, some "tB"⟩)] ∧
    ("A" : String) ≠ "B" ∧
    mkOpp "A" "B" ⟨101, 203 / 2, some "tA"⟩ ⟨199 / 2, 100, some "tB"⟩
        (1 / 1000) (1 / 1000) ∈
      scanTick [("A", ⟨some 101, some (203 / 2), some "tA"⟩),
        ("B", ⟨some (199 / 2), some 100, some "tB"⟩)]
        (1 / 1000) (1 / 1000) (1 / 1000) :=
  ⟨by norm_num, by simp [validBooks], by simp [validBooks], by decide,
    (scan_emits_iff_profitable
      [("A", ⟨some 101, some (203 / 2), some "tA"⟩),
        ("B", ⟨some (199 / 2), some 100, some "tB"⟩)]
      (1 / 1000) (1 / 1000) (1 / 1000) "A" "B"
      ⟨101, 203 / 2, some "tA"⟩ ⟨199 / 2, 100, some "tB"⟩
      (by norm_num) (by simp [validBooks]) (by simp [validBooks])
      (by decide)).1.mpr
      (by norm_num [profitPct, netReceive, netCost])⟩

/-- C5 counterexample: the claim quantifies over all books with
`buy.best_ask ≥ sell.best_bid` on every distinct pair, all non-negative fees
and positive thresholds — but with negative prices (bid −300, ask −100 on
both exchanges) and `fee_buy = 1`, `profit_pct = 1/2 ≥ 0.001`, so the tick
emits opportunities even though every pair satisfies ask ≥ bid. -/
theorem no_arbitrage_tick_counterexample :
    validBooks [("A", ⟨some (-300), some (-100), none⟩),
        ("B", ⟨some (-300), some (-100), none⟩)] =
      [("A", ⟨-300, -100, none⟩), ("B", ⟨-300, -100, none⟩)] ∧
    ((-300 : ℚ) ≤ -100) ∧ ((0 : ℚ) ≤ 1) ∧ ((0 : ℚ) ≤ 0) ∧
    ((0 : ℚ) < 1 / 1000) ∧
    profitPct (-300) (-100) 1 0 = 1 / 2 ∧
    scanTick [("A", ⟨some (-300), some (-100), none⟩),
        ("B", ⟨some (-300), some (-100), none⟩)] (1 / 1000) 1 0 ≠ [] := by
  refine ⟨by simp [validBooks], by norm_num, by norm_num, le_refl 0,
    by norm_num, by norm_num [profitPct, netReceive, netCost], ?_⟩
  rw [scanTick_of_two _ _ _ _ (by norm_num)]
  have hv : validBooks [("A", ⟨some (-300), some (-100), none⟩),
      ("B", ⟨some (-300), some (-100), none⟩)] =
      [("A", ⟨-300, -100, none⟩), ("B", ⟨-300, -100, none⟩)] := by
    simp [validBooks]
  rw [hv]
  norm_num [mkOpp, profitPct, netReceive, netCost, List.flatMap_cons,
    List.flatMap_nil, List.filterMap_cons, List.filterMap_nil,
    (show ("A" : String) ≠ "B" by decide), (show ("B" : String) ≠ "A" by decide)]
  exact List.cons_ne_nil _ _

/-- C5 (amended): on any tick whose valid exchanges all have *non-negative*
best bid and ask prices, if `buy.best_ask ≥ sell.best_bid` for every ordered
pair of distinct valid exchanges, then for all non-negative fees and positive
threshold the scanner emits zero opportunities. -/
theorem no_arbitrage_tick (books : List (String × BookEntry))
    (thr fb fs : ℚ)
    (hprices : ∀ e ∈ validBooks books,
      0 ≤ e.2.best_bid ∧ 0 ≤ e.2.best_ask)
    (hcross : ∀ se ∈ validBooks books, ∀ be ∈ validBooks books,
      se.1 ≠ be.1 → se.2.best_bid ≤ be.2.best_ask)
    (hfb : 0 ≤ fb) (hfs : 0 ≤ fs) (hthr : 0 < thr) :
    scanTick books thr fb fs = [] := by
  by_cases h2 : books.length < 2
  · unfold scanTick
    rw [if_pos h2]
  · rw [scanTick_of_two books thr fb fs (by omega),
      List.flatMap_eq_nil_iff]
    intro se hse
    rw [List.filterMap_eq_nil_iff]
    intro be hbe
    by_cases hc1 : se.1 = be.1
    · rw [if_pos hc1]
    · have hprof := profitPct_nonpos se.2.best_bid be.2.best_ask fb fs
        (hprices se hse).1 (hprices be hbe).2 (hcross se hse be hbe hc1)
        hfb hfs
      rw [if_neg hc1, if_neg (by intro hthr2; linarith)]

/-- C5 witness: a two-exchange tick with positive prices, ask ≥ bid on both
cross pairs, fees 0.001 and threshold 0.001 emits nothing. -/
theorem no_arbitrage_tick_witness :
    scanTick [("A", ⟨some 10, some 11, none⟩), ("B", ⟨some 9, some 12, none⟩)]
      (1 / 1000) (1 / 1000) (1 / 1000) = [] := by
  refine no_arbitrage_tick
    [("A", ⟨some 10, some 11, none⟩), ("B", ⟨some 9, some 12, none⟩)]
    (1 / 1000) (1 / 1000) (1 / 1000) ?_ ?_ (by norm_num) (by norm_num)
    (by norm_num)
  · intro e he
    simp only [validBooks, List.filterMap_cons, List.filterMap_nil] at he
    simp only [List.mem_cons, List.not_mem_nil, or_false] at he
    rcases he with rfl | rfl <;> norm_num
  · intro se hse be hbe hne
    simp only [validBooks, List.filterMap_cons, List.filterMap_nil] at hse hbe
    simp only [List.mem_cons, List.not_mem_nil, or_false] at hse hbe
    rcases hse with rfl | rfl <;> rcases hbe with rfl | rfl
    · exact absurd rfl hne
    · norm_num
    · norm_num
    · exact absurd rfl hne

/-- C6 counterexample: the delay formula of the claim with the attempt counter
incremented on each failure gives a first-failure delay of
`min(30, 2^1) + j = 2 + j ≥ 2` — which matches the Binance/Coinbase clients —
but the OKX client sleeps exactly 1 on its first failure (its `backoff`
starts at 1 and carries no jitter); under the alternative reading (counter =
number of *prior* failures) the actual first delay of the Binance client
`min(30, 2^1) + j = 5/2` (for j = 1/2) differs from the claimed
`min(30, 2^0) + j = 3/2`.  Either way some client violates the formula. -/
theorem backoff_formula_counterexample :
    (okxStep 1 (NetEvent.fail (1 / 2))).2 = some 1 ∧
    binanceDelay 1 0 = 2 ∧ ((1 : ℚ) < 2) ∧
    (binanceStep 0 (NetEvent.fail (1 / 2))).2 = some (5 / 2) ∧
    binanceDelay 0 (1 / 2) = 3 / 2 ∧ ((5 / 2 : ℚ) ≠ 3 / 2) := by
  have hm1 : min (30 : ℚ) (2 ^ (1 : ℕ)) = 2 := by
    rw [pow_one]
    exact min_eq_right (by norm_num)
  have hm0 : min (30 : ℚ) (2 ^ (0 : ℕ)) = 1 := by
    rw [pow_zero]
    exact min_eq_right (by norm_num)
  refine ⟨rfl, ?_, by norm_num, ?_, ?_, by norm_num⟩
  · rw [binanceDelay, hm1]
    norm_num
  · show some (binanceDelay (0 + 1) (1 / 2)) = some (5 / 2)
    rw [binanceDelay]
    norm_num [hm1]
  · rw [binanceDelay, hm0]
    norm_num

/-- C6 (amended): per client and per trace of its own
connect/stream events — the Binance and Coinbase `handle_stream` loops sleep
`min(30, 2^n) + jitter` on a failure, where `n` counts the consecutive
failures including the current one and resets to 0 on a successful
connect+subscribe; the OKX loop instead sleeps `min(2^k, 30)` with *no
jitter*, where `k` counts the prior consecutive failures, doubling capped at
30 and reset on success. -/
theorem backoff_per_client (evs : List NetEvent) (j : ℚ) :
    runMachine binanceStep 0 evs = consecFails evs ∧
    (binanceStep (runMachine binanceStep 0 evs) (NetEvent.fail j)).2 =
      some (min 30 (2 ^ (consecFails evs + 1)) + j) ∧
    runMachine okxStep 1 evs = min ((2 : ℚ) ^ consecFails evs) 30 ∧
    (okxStep (runMachine okxStep 1 evs) (NetEvent.fail j)).2 =
      some (min ((2 : ℚ) ^ consecFails evs) 30) ∧
    runMachine binanceStep 0 (evs ++ [NetEvent.ok]) = 0 ∧
    runMachine okxStep 1 (evs ++ [NetEvent.ok]) = 1 := by
  have h1 : min ((2 : ℚ) ^ (0 : ℕ)) 30 = 1 := by
    rw [pow_zero]
    exact min_eq_left (by norm_num)
  have hb := binance_run 0 evs
  have ho : runMachine okxStep 1 evs = min ((2 : ℚ) ^ consecFails evs) 30 := by
    rw [consecFails_eq_consecFrom, ← okx_run 0 evs, h1]
  refine ⟨?_, ?_, ho, ?_, ?_, ?_⟩
  · rw [hb, consecFails_eq_consecFrom]
  · rw [hb, consecFails_eq_consecFrom]
    rfl
  · rw [ho]
    rfl
  · rw [runMachine_append]
    rfl
  · rw [runMachine_append]
    rfl

end ArbBot
